import Mathlib

/-!
Verification of the MESMER Yeo-Johnson power-transformer module
(`mesmer/stats/_power_transformer.py`).

The floating-point kernels are embedded over `ℝ` with exact real arithmetic:
`np.log1p x` becomes `Real.log (1 + x)`, `np.expm1 x` becomes `Real.exp x - 1`,
and the machine epsilon `np.finfo(np.float64).eps` becomes the exact rational
`1 / 2 ^ 52`.  NaN-aware behaviour (needed for the NaN-filtering of the fitter
and for the inverse kernel's treatment of NaN inputs) is embedded with
`Option ℝ`, `none` standing for NaN, and comparisons against NaN evaluating to
`false` as in IEEE-754.  The value `np.log 0 = -inf` produced inside the
negative log-likelihood is embedded with a small extended-value type `FVal`
mirroring IEEE special values for exactly the operations the source performs.
-/

open Classical

noncomputable section

/-- Machine epsilon of IEEE-754 binary64, `np.finfo(np.float64).eps = 2⁻⁵²`. -/
def yjEps : ℝ := 1 / 2 ^ 52

/-- Logistic lambda model, `lambda_function` (lines 6-32):
`2 / (1 + coeffs[0] * np.exp(local_yearly_T * coeffs[1]))`. -/
def lambdaFunction (coeffs : ℝ × ℝ) (t : ℝ) : ℝ :=
  2 / (1 + coeffs.1 * Real.exp (t * coeffs.2))

/-- Per-element lambda alignment of `_yeo_johnson_transform_optimized`
(line 81): `np.where(pos, lambdas, 2.0 - lambdas)` with `pos = data >= 0`. -/
def yjExponent (x lam : ℝ) : ℝ := if 0 ≤ x then lam else 2 - lam

/-- Per-element magnitude of the forward kernel (lines 84-90): `L` is the
precomputed `log1p(|data|)`, `l` the aligned lambda; the singular branch fires
when `|l| <= eps`, otherwise `expm1(L * l) / l`. -/
def yjMagnitude (L l : ℝ) : ℝ :=
  if |l| ≤ yjEps then L else (Real.exp (L * l) - 1) / l

/-- Real model of `np.copysign(m, x)` (line 92): magnitude of `m`, sign of
`x` (a single real zero plays the role of IEEE `+0`). -/
def copysign (m x : ℝ) : ℝ := if 0 ≤ x then |m| else -|m|

/-- Forward Yeo-Johnson kernel `_yeo_johnson_transform_optimized` (lines
61-96), per element. -/
def yjTransform (x lam : ℝ) : ℝ :=
  copysign (yjMagnitude (Real.log (1 + |x|)) (yjExponent x lam)) x

/-- Array (elementwise) forward kernel. -/
def yjTransformList (d l : List ℝ) : List ℝ := List.zipWith yjTransform d l

/-- Branch mask `sel_a` of `_yeo_johnson_inverse_transform_np` (line 125):
`(data >= 0) & (np.abs(lambdas) < eps)`. -/
def sel_a (t lam : ℝ) : Prop := 0 ≤ t ∧ |lam| < yjEps

/-- Branch mask `sel_b` (line 126): `(data >= 0) & (np.abs(lambdas) >= eps)`. -/
def sel_b (t lam : ℝ) : Prop := 0 ≤ t ∧ yjEps ≤ |lam|

/-- Branch mask `sel_c` (line 127): `(data < 0) & (np.abs(lambdas - 2) > eps)`. -/
def sel_c (t lam : ℝ) : Prop := t < 0 ∧ yjEps < |lam - 2|

/-- Branch mask `sel_d` (line 128): `(data < 0) & (np.abs(lambdas - 2) <= eps)`. -/
def sel_d (t lam : ℝ) : Prop := t < 0 ∧ |lam - 2| ≤ yjEps

/-- Inverse Yeo-Johnson kernel `_yeo_johnson_inverse_transform_np` (lines
99-140), per element, for real (non-NaN) inputs.  On reals the four masks
are exhaustive and pairwise disjoint, so mask assignment is branch selection. -/
def yjInverse (t lam : ℝ) : ℝ :=
  if sel_a t lam then Real.exp t - 1
  else if sel_b t lam then Real.exp (Real.log (1 + t * lam) / lam) - 1
  else if sel_c t lam then
    -(Real.exp (Real.log (1 + -((2 - lam) * t)) / (2 - lam)) - 1)
  else -(Real.exp (-t) - 1)

/-- Array (elementwise) inverse kernel. -/
def yjInverseList (d l : List ℝ) : List ℝ := List.zipWith yjInverse d l

/-- Spec-side formulation of the forward kernel, written from the words of
the contract in spec §4.2: effective exponent `lambda` for `data ≥ 0` and
`2 - lambda` for `data < 0`; magnitude `log1p(|data|)` when the effective
exponent is within machine epsilon of zero, else
`expm1(log1p(|data|) · exponent) / exponent`; the result carries the sign of
the input. -/
def yjTransformSpecC2 (x lam : ℝ) : ℝ :=
  Real.sign x *
    (if |(if 0 ≤ x then lam else 2 - lam)| ≤ yjEps then Real.log (1 + |x|)
     else (Real.exp (Real.log (1 + |x|) * (if 0 ≤ x then lam else 2 - lam)) - 1) /
       (if 0 ≤ x then lam else 2 - lam))

/-- NaN-aware comparison `x >= 0` on a float (`none` = NaN): any comparison
with NaN is `false` in IEEE-754. -/
def oGE0 (d : Option ℝ) : Bool :=
  match d with
  | none => false
  | some x => decide (0 ≤ x)

/-- NaN-propagating lift of a unary real function (models `np.log1p`,
`np.expm1` and friends applied to a possibly-NaN element). -/
def oMap (f : ℝ → ℝ) : Option ℝ → Option ℝ := Option.map f

/-- NaN-aware `np.copysign(m, d)`.  In the kernel `m` is NaN exactly when
`d` is, so the NaN-sign-bit case `(some, none)` is unreachable; it is mapped
to `none` (the magnitude that would be produced is irrelevant downstream). -/
def ocopysign (m d : Option ℝ) : Option ℝ :=
  match m, d with
  | some a, some b => some (if 0 ≤ b then |a| else -|a|)
  | _, _ => none

/-- NaN-aware forward kernel `_yeo_johnson_transform_optimized` (lines
61-96), per element: `data` may be NaN, the lambda is a real number.
Mirrors the source step by step: `data_log1p = log1p(abs(data))`,
`pos = data >= 0`, lambda alignment, the two magnitude branches, `copysign`. -/
def yjTransformO (d : Option ℝ) (lam : ℝ) : Option ℝ :=
  let dlog := oMap (fun x => Real.log (1 + |x|)) d
  let l := if oGE0 d then lam else 2 - lam
  let m := if |l| ≤ yjEps then dlog else oMap (fun L => (Real.exp (L * l) - 1) / l) dlog
  ocopysign m d

/-- NaN-aware mask `sel_a` (line 125): false when `data` is NaN. -/
def selO_a (d : Option ℝ) (lam : ℝ) : Bool :=
  oGE0 d && decide (|lam| < yjEps)

/-- NaN-aware mask `sel_b` (line 126): false when `data` is NaN. -/
def selO_b (d : Option ℝ) (lam : ℝ) : Bool :=
  oGE0 d && decide (yjEps ≤ |lam|)

/-- NaN-aware comparison `x < 0` on a float (`none` = NaN). -/
def oLT0 (d : Option ℝ) : Bool :=
  match d with
  | none => false
  | some x => decide (x < 0)

/-- NaN-aware mask `sel_c` (line 127): false when `data` is NaN. -/
def selO_c (d : Option ℝ) (lam : ℝ) : Bool :=
  oLT0 d && decide (yjEps < |lam - 2|)

/-- NaN-aware mask `sel_d` (line 128): false when `data` is NaN. -/
def selO_d (d : Option ℝ) (lam : ℝ) : Bool :=
  oLT0 d && decide (|lam - 2| ≤ yjEps)

/-- One element of the masked assignments (lines 131-138): if some mask
selects the position the corresponding branch value is written, otherwise the
position keeps the arbitrary content `b` of the uninitialized
`np.empty_like` output buffer. -/
def yjInverseArrEl (b d : Option ℝ) (lam : ℝ) : Option ℝ :=
  if selO_a d lam then oMap (fun x => Real.exp x - 1) d
  else if selO_b d lam then oMap (fun x => Real.exp (Real.log (1 + x * lam) / lam) - 1) d
  else if selO_c d lam then
    oMap (fun x => -(Real.exp (Real.log (1 + -((2 - lam) * x)) / (2 - lam)) - 1)) d
  else if selO_d d lam then oMap (fun x => -(Real.exp (-x) - 1)) d
  else b

/-- Ternary zip (positionwise combination of buffer, data and lambdas). -/
def zip3With (f : α → β → γ → δ) : List α → List β → List γ → List δ
  | a :: as, b :: bs, c :: cs => f a b c :: zip3With f as bs cs
  | _, _, _ => []

/-- NaN-aware array-level inverse kernel `_yeo_johnson_inverse_transform_np`
(lines 99-140): `buf` is the arbitrary initial content of the uninitialized
output buffer `np.empty_like(data)`. -/
def yjInverseArr (buf d : List (Option ℝ)) (l : List ℝ) : List (Option ℝ) :=
  zip3With yjInverseArrEl buf d l

/-- NaN mask of the fitter (line 147):
`np.isnan(monthly_residuals) | np.isnan(yearly_pred)`. -/
def isnanMask (r y : List (Option ℝ)) : List Bool :=
  List.zipWith (fun a b => a.isNone || b.isNone) r y

/-- Boolean-mask indexing `xs[~mask]` (lines 148-149): keep, in order, the
elements at positions where the mask is `false`. -/
def filterMask (mask : List Bool) (xs : List (Option ℝ)) : List (Option ℝ) :=
  (mask.zip xs).filterMap (fun p => if p.1 then none else some p.2)

/-- Extract the real values of a NaN-free float list. -/
def toReals (xs : List (Option ℝ)) : List ℝ := xs.filterMap id

/-- Extended float values as produced by the log-likelihood: finite, the two
infinities, NaN.  Only the operations the source performs are embedded. -/
inductive FVal
  | fin (x : ℝ)
  | pinf
  | ninf
  | nan
deriving DecidableEq

/-- IEEE negation of an extended value. -/
def FVal.neg : FVal → FVal
  | fin x => fin (-x)
  | pinf => ninf
  | ninf => pinf
  | nan => nan

/-- IEEE addition of a finite real to an extended value (the log-likelihood
adds the finite Jacobian correction term, line 168). -/
def FVal.addR : FVal → ℝ → FVal
  | fin x, r => fin (x + r)
  | pinf, _ => pinf
  | ninf, _ => ninf
  | nan, _ => nan

/-- IEEE multiplication of a finite real scalar with an extended value
(the factor `-n_samples / 2` on line 166); `0 * ±inf = NaN`. -/
def smulF (c : ℝ) : FVal → FVal
  | FVal.fin x => FVal.fin (c * x)
  | FVal.pinf => if c < 0 then FVal.ninf else if c = 0 then FVal.nan else FVal.pinf
  | FVal.ninf => if c < 0 then FVal.pinf else if c = 0 then FVal.nan else FVal.ninf
  | FVal.nan => FVal.nan

/-- IEEE `np.log` on a nonnegative float: `log 0 = -inf`, `log` of a negative
number is NaN, otherwise finite. -/
def flog (x : ℝ) : FVal :=
  if x < 0 then FVal.nan else if x = 0 then FVal.ninf else FVal.fin (Real.log x)

/-- Signed `log1p`: `np.sign(r) * np.log1p(np.abs(r))` (line 154). -/
def sLog1p (x : ℝ) : ℝ := Real.sign x * Real.log (1 + |x|)

/-- Arithmetic mean of a list (`np.mean`; 0 on the empty list as `0/0 = 0`). -/
def meanL (xs : List ℝ) : ℝ := xs.sum / xs.length

/-- Population variance `ndarray.var()` (ddof = 0). -/
def varL (xs : List ℝ) : ℝ := meanL (xs.map fun x => (x - meanL xs) ^ 2)

/-- Negative log-likelihood `_neg_log_likelihood` (lines 157-170) on the
NaN-free residuals `r` and covariate `y`:
`-(-n/2 * log(var(t)) + sum(lambda * data_log1p) - sum(data_log1p))`,
valued in extended floats since `np.log 0 = -inf`. -/
def negLogLikelihood (r y : List ℝ) (coeffs : ℝ × ℝ) : FVal :=
  let lambdas := y.map (lambdaFunction coeffs)
  let t := List.zipWith yjTransform r lambdas
  let n : ℝ := r.length
  let dl := r.map sLog1p
  let ll := (smulF (-n / 2) (flog (varL t))).addR
    ((List.zipWith (fun a b => a * b) lambdas dl).sum - dl.sum)
  ll.neg

/-- Clipping into the closed bounds box of line 172,
`bounds = [[0, inf], [-0.1, 0.1]]`: scipy's Nelder-Mead with bounds keeps
every iterate (hence the returned point) inside the closed box by clipping. -/
def clipToBounds (p : ℝ × ℝ) : ℝ × ℝ :=
  (max 0 p.1, min (1 / 10) (max (-(1 / 10)) p.2))

/-- Largest finite IEEE-754 binary64 value, `(2 - 2⁻⁵²) · 2¹⁰²³`; the claim's
"finite data" ranges over `[-dblMax, dblMax]`. -/
def dblMax : ℝ := 2 ^ 1024 - 2 ^ 971

/-- Likelihood fitter `_yeo_johnson_optimize_lambda_np` (lines 143-182).
Modelled from the spec: `scipy.optimize.minimize` is external library code;
per spec §4.4 it is a deterministic derivative-free simplex search over the
objective whose returned point lies in the closed bounds box (clipping
semantics of Nelder-Mead with bounds).  The search itself is the opaque
parameter `opt`; the NaN filtering and the objective are concrete. -/
def optimizeLambdaCoeffs (opt : ((ℝ × ℝ) → FVal) → ℝ × ℝ)
    (r y : List (Option ℝ)) : ℝ × ℝ :=
  let mask := isnanMask r y
  let rc := toReals (filterMask mask r)
  let yc := toReals (filterMask mask y)
  clipToBounds (opt (fun coeffs => negLogLikelihood rc yc coeffs))

end

lemma yjEps_pos : 0 < yjEps := by rw [yjEps]; norm_num

lemma yjEps_lt_one : yjEps < 1 := by rw [yjEps]; norm_num

lemma yjMagnitude_zero (l : ℝ) : yjMagnitude 0 l = 0 := by
  unfold yjMagnitude
  split
  · rfl
  · simp

lemma yjMagnitude_nonneg (L l : ℝ) (hL : 0 ≤ L) : 0 ≤ yjMagnitude L l := by
  unfold yjMagnitude
  split
  · exact hL
  · rename_i h
    rcases lt_trichotomy l 0 with hl | hl | hl
    · have hle : Real.exp (L * l) ≤ 1 := by
        rw [show (1:ℝ) = Real.exp 0 by rw [Real.exp_zero]]
        exact Real.exp_le_exp.mpr (mul_nonpos_of_nonneg_of_nonpos hL hl.le)
      have h1 : Real.exp (L * l) - 1 ≤ 0 := by linarith
      exact div_nonneg_of_nonpos h1 hl.le
    · exact absurd (by rw [hl, abs_zero]; exact yjEps_pos.le) h
    · have hge : 1 ≤ Real.exp (L * l) := by
        rw [show (1:ℝ) = Real.exp 0 by rw [Real.exp_zero]]
        exact Real.exp_le_exp.mpr (mul_nonneg hL hl.le)
      exact div_nonneg (by linarith) hl.le

lemma yjMagnitude_pos (L l : ℝ) (hL : 0 < L) (hl : 0 < l) : 0 < yjMagnitude L l := by
  unfold yjMagnitude
  split
  · exact hL
  · have h1 : 0 < L * l := mul_pos hL hl
    have h2 := Real.add_one_le_exp (L * l)
    exact div_pos (by linarith) hl

lemma yjTransform_zero (lam : ℝ) : yjTransform 0 lam = 0 := by
  unfold yjTransform copysign
  simp [yjMagnitude_zero]

lemma yjExponent_one (x : ℝ) : yjExponent x 1 = 1 := by
  unfold yjExponent
  split <;> norm_num

lemma yjMagnitude_one (L : ℝ) : yjMagnitude L 1 = Real.exp L - 1 := by
  unfold yjMagnitude
  rw [if_neg, mul_one, div_one]
  rw [abs_one]
  exact not_le.mpr yjEps_lt_one

lemma yjTransform_one (x : ℝ) : yjTransform x 1 = x := by
  unfold yjTransform
  rw [yjExponent_one, yjMagnitude_one, Real.exp_log (by positivity)]
  have hx1 : (1 : ℝ) + |x| - 1 = |x| := by ring
  rw [hx1]
  unfold copysign
  rcases le_or_lt 0 x with hx | hx
  · rw [if_pos hx, abs_abs, abs_of_nonneg hx]
  · rw [if_neg (not_le.mpr hx), abs_abs, abs_of_neg hx, neg_neg]

lemma yjTransformSpecC2_eq (x lam : ℝ) :
    yjTransformSpecC2 x lam
      = Real.sign x * yjMagnitude (Real.log (1 + |x|)) (yjExponent x lam) := rfl

/-- C2: for every element, the forward transform kernel computes an effective
exponent equal to `lambda` when `data ≥ 0` and `2 - lambda` when `data < 0`;
when the effective exponent's absolute value is at most machine epsilon the
transformed magnitude is `log1p(|data|)`, otherwise it is
`expm1(log1p(|data|) * exponent) / exponent`; the result carries the sign of
the input. -/
theorem transform_kernel_branch_structure (x lam : ℝ) :
    yjTransform x lam = yjTransformSpecC2 x lam := by
  rw [yjTransformSpecC2_eq]
  have hL : (0:ℝ) ≤ Real.log (1 + |x|) :=
    Real.log_nonneg (by linarith [abs_nonneg x])
  have hm : 0 ≤ yjMagnitude (Real.log (1 + |x|)) (yjExponent x lam) :=
    yjMagnitude_nonneg _ _ hL
  rcases lt_trichotomy x 0 with hx | hx | hx
  · rw [yjTransform, copysign, if_neg (not_le.mpr hx), Real.sign_of_neg hx,
      abs_of_nonneg hm]
    ring
  · subst hx
    rw [yjTransform_zero, Real.sign_zero, zero_mul]
  · rw [yjTransform, copysign, if_pos hx.le, Real.sign_of_pos hx,
      abs_of_nonneg hm, one_mul]

/-- C3: for every pair of finite coefficients with `xi0 > 0` (and any finite
`xi1`) and every finite covariate value, the lambda produced by the logistic
lambda function `2 / (1 + xi0 * exp(xi1 * covariate))` is strictly greater
than 0 and strictly less than 2. -/
theorem lambda_function_bounds (xi0 xi1 t : ℝ) (h : 0 < xi0) :
    0 < lambdaFunction (xi0, xi1) t ∧ lambdaFunction (xi0, xi1) t < 2 := by
  unfold lambdaFunction
  have he := Real.exp_pos (t * xi1)
  have hd : 1 < 1 + xi0 * Real.exp (t * xi1) := by nlinarith
  constructor
  · positivity
  · rw [div_lt_iff₀ (by linarith)]
    nlinarith

/-- Witness for C3 at `xi0 = 1`, `xi1 = 0`, covariate `0`. -/
theorem lambda_function_bounds_witness :
    0 < lambdaFunction (1, 0) 0 ∧ lambdaFunction (1, 0) 0 < 2 :=
  lambda_function_bounds 1 0 0 (by norm_num)

/-- C4: for every finite data element and every valid lambda (in the open
interval (0, 2)), the forward transform kernel's output has the same sign as
its input, and an input of exactly zero is transformed to exactly zero. -/
theorem transform_sign_preservation (x lam : ℝ) (h0 : 0 < lam) (h2 : lam < 2) :
    Real.sign (yjTransform x lam) = Real.sign x ∧ yjTransform 0 lam = 0 := by
  refine ⟨?_, yjTransform_zero lam⟩
  rcases lt_trichotomy x 0 with hx | hx | hx
  · have hL : 0 < Real.log (1 + |x|) :=
      Real.log_pos (by rw [abs_of_neg hx]; linarith)
    have hm : 0 < yjMagnitude (Real.log (1 + |x|)) (yjExponent x lam) := by
      rw [yjExponent, if_neg (not_le.mpr hx)]
      exact yjMagnitude_pos _ _ hL (by linarith)
    rw [yjTransform, copysign, if_neg (not_le.mpr hx), Real.sign_of_neg hx,
      Real.sign_of_neg (neg_lt_zero.mpr (abs_pos.mpr hm.ne'))]
  · subst hx
    rw [yjTransform_zero]
  · have hL : 0 < Real.log (1 + |x|) :=
      Real.log_pos (by rw [abs_of_pos hx]; linarith)
    have hm : 0 < yjMagnitude (Real.log (1 + |x|)) (yjExponent x lam) := by
      rw [yjExponent, if_pos hx.le]
      exact yjMagnitude_pos _ _ hL h0
    rw [yjTransform, copysign, if_pos hx.le, Real.sign_of_pos hx,
      Real.sign_of_pos (abs_pos.mpr hm.ne')]

/-- Witness for C4 at `x = 2`, `lambda = 1`. -/
theorem transform_sign_preservation_witness :
    Real.sign (yjTransform 2 1) = Real.sign 2 ∧ yjTransform 0 1 = 0 :=
  transform_sign_preservation 2 1 (by norm_num) (by norm_num)

/-- C5: in the inverse transform kernel, the four boolean branch masks
(discriminated by sign of `data` and whether `lambda` is within `eps` of 0 or
of 2) partition the element positions: every real element satisfies exactly
one of the masks, and no element is selected by more than one. -/
theorem inverse_masks_partition (t lam : ℝ) :
    (sel_a t lam ∨ sel_b t lam ∨ sel_c t lam ∨ sel_d t lam) ∧
    ¬(sel_a t lam ∧ sel_b t lam) ∧ ¬(sel_a t lam ∧ sel_c t lam) ∧
    ¬(sel_a t lam ∧ sel_d t lam) ∧ ¬(sel_b t lam ∧ sel_c t lam) ∧
    ¬(sel_b t lam ∧ sel_d t lam) ∧ ¬(sel_c t lam ∧ sel_d t lam) := by
  unfold sel_a sel_b sel_c sel_d
  constructor
  · rcases le_or_lt 0 t with ht | ht
    · rcases lt_or_le |lam| yjEps with h | h
      · exact Or.inl ⟨ht, h⟩
      · exact Or.inr (Or.inl ⟨ht, h⟩)
    · rcases le_or_lt |lam - 2| yjEps with h | h
      · exact Or.inr (Or.inr (Or.inr ⟨ht, h⟩))
      · exact Or.inr (Or.inr (Or.inl ⟨ht, h⟩))
  · refine ⟨?_, ?_, ?_, ?_, ?_, ?_⟩ <;> rintro ⟨⟨h1, h2⟩, h3, h4⟩ <;> linarith

/-- C9: for every finite input `x`, the forward transform kernel with lambda
exactly equal to 1 returns `x` exactly (the transform is the identity at
`lambda = 1`). -/
theorem transform_identity_at_lambda_one (x : ℝ) : yjTransform x 1 = x :=
  yjTransform_one x

lemma isnanMask_cons (a b : Option ℝ) (as bs : List (Option ℝ)) :
    isnanMask (a :: as) (b :: bs) = (a.isNone || b.isNone) :: isnanMask as bs := rfl

lemma filterMask_cons (m : Bool) (ms : List Bool) (x : Option ℝ)
    (xs : List (Option ℝ)) :
    filterMask (m :: ms) (x :: xs)
      = if m then filterMask ms xs else x :: filterMask ms xs := by
  unfold filterMask
  cases m <;> simp [List.filterMap_cons]

lemma filterMask_isnan_spec (r : List (Option ℝ)) :
    ∀ y : List (Option ℝ),
      filterMask (isnanMask r y) r
          = ((r.zip y).filter fun p => p.1.isSome && p.2.isSome).map Prod.fst
        ∧ filterMask (isnanMask r y) y
          = ((r.zip y).filter fun p => p.1.isSome && p.2.isSome).map Prod.snd := by
  induction r with
  | nil => intro y; exact ⟨rfl, rfl⟩
  | cons a as ih =>
    intro y
    cases y with
    | nil => exact ⟨rfl, rfl⟩
    | cons b bs =>
      obtain ⟨ih1, ih2⟩ := ih bs
      cases a <;> cases b <;>
        simp [isnanMask_cons, filterMask_cons, List.zip_cons_cons,
          List.filter_cons, ih1, ih2]

lemma filterMask_isnan_id (r : List (Option ℝ)) :
    ∀ y : List (Option ℝ), r.length = y.length →
      (∀ z ∈ r, z.isSome = true) → (∀ z ∈ y, z.isSome = true) →
      filterMask (isnanMask r y) r = r ∧ filterMask (isnanMask r y) y = y := by
  induction r with
  | nil =>
    intro y hlen _ _
    cases y with
    | nil => exact ⟨rfl, rfl⟩
    | cons b bs => simp at hlen
  | cons a as ih =>
    intro y hlen hr hy
    cases y with
    | nil => simp at hlen
    | cons b bs =>
      have ha : a.isSome = true := hr a (List.mem_cons_self _ _)
      have hb : b.isSome = true := hy b (List.mem_cons_self _ _)
      obtain ⟨ih1, ih2⟩ := ih bs (by simpa using hlen)
        (fun z hz => hr z (List.mem_cons_of_mem _ hz))
        (fun z hz => hy z (List.mem_cons_of_mem _ hz))
      have hmask : (a.isNone || b.isNone) = false := by
        rcases Option.isSome_iff_exists.mp ha with ⟨xa, rfl⟩
        rcases Option.isSome_iff_exists.mp hb with ⟨xb, rfl⟩
        rfl
      rw [isnanMask_cons, hmask, filterMask_cons, filterMask_cons]
      simp [ih1, ih2]

/-- C6: the likelihood fitter drops exactly the index positions where either
the residual or the covariate is NaN (paired removal), and fitting on a
series with such NaN pairs inserted returns the same coefficients as fitting
directly on the NaN-free subset.  The opaque `opt` is the external
`scipy.optimize.minimize`, a deterministic function of the objective it is
given; everything it sees is built from the filtered arrays only. -/
theorem nan_paired_removal_fit_invariance
    (opt : ((ℝ × ℝ) → FVal) → ℝ × ℝ) (r y rc yc : List (Option ℝ))
    (hrc : filterMask (isnanMask r y) r = rc)
    (hyc : filterMask (isnanMask r y) y = yc) :
    rc = ((r.zip y).filter fun p => p.1.isSome && p.2.isSome).map Prod.fst ∧
    yc = ((r.zip y).filter fun p => p.1.isSome && p.2.isSome).map Prod.snd ∧
    optimizeLambdaCoeffs opt r y = optimizeLambdaCoeffs opt rc yc := by
  obtain ⟨h1, h2⟩ := filterMask_isnan_spec r y
  have hrc' : rc = ((r.zip y).filter fun p => p.1.isSome && p.2.isSome).map Prod.fst :=
    hrc ▸ h1
  have hyc' : yc = ((r.zip y).filter fun p => p.1.isSome && p.2.isSome).map Prod.snd :=
    hyc ▸ h2
  refine ⟨hrc', hyc', ?_⟩
  have hallr : ∀ z ∈ rc, z.isSome = true := by
    rw [hrc']
    intro z hz
    rw [List.mem_map] at hz
    obtain ⟨p, hp, rfl⟩ := hz
    rw [List.mem_filter] at hp
    exact (Bool.and_eq_true _ _ |>.mp hp.2).1
  have hally : ∀ z ∈ yc, z.isSome = true := by
    rw [hyc']
    intro z hz
    rw [List.mem_map] at hz
    obtain ⟨p, hp, rfl⟩ := hz
    rw [List.mem_filter] at hp
    exact (Bool.and_eq_true _ _ |>.mp hp.2).2
  have hlen2 : rc.length = yc.length := by
    rw [hrc', hyc']
    simp
  obtain ⟨hid1, hid2⟩ := filterMask_isnan_id rc yc hlen2 hallr hally
  simp only [optimizeLambdaCoeffs, hrc, hyc, hid1, hid2]

/-- Witness for C6: residuals `[1, NaN, 2]` and covariate `[3, 4, NaN]`; the
NaN-free subset is the single pair `(1, 3)`. -/
theorem nan_paired_removal_fit_invariance_witness :
    ([some (1:ℝ)]
        = (([some (1:ℝ), none, some 2].zip [some (3:ℝ), some 4, none]).filter
            fun p => p.1.isSome && p.2.isSome).map Prod.fst) ∧
    ([some (3:ℝ)]
        = (([some (1:ℝ), none, some 2].zip [some (3:ℝ), some 4, none]).filter
            fun p => p.1.isSome && p.2.isSome).map Prod.snd) ∧
    optimizeLambdaCoeffs (fun _ => (1, 0)) [some 1, none, some 2]
        [some 3, some 4, none]
      = optimizeLambdaCoeffs (fun _ => (1, 0)) [some 1] [some 3] :=
  nan_paired_removal_fit_invariance (fun _ => (1, 0))
    [some 1, none, some 2] [some 3, some 4, none] [some 1] [some 3] rfl rfl

/-- C7 counterexample: the claim asserts `xi0` is strictly positive for every
fit result, but the source passes the closed bound `[0, inf)` for `xi0`
(line 172), so a bounds-respecting simplex search may return `xi0 = 0`
exactly (the clipping keeps it inside the closed box). -/
theorem fit_xi0_strict_positivity_fails :
    ¬(0 < (optimizeLambdaCoeffs (fun _ => (0, 0))
        [some 1, some 2] [some 0, some 0]).1) := by
  have h : (optimizeLambdaCoeffs (fun _ => (0, 0))
      [some 1, some 2] [some 0, some 0]).1 = 0 := by
    simp only [optimizeLambdaCoeffs, clipToBounds]
    norm_num
  rw [h]
  exact lt_irrefl 0

/-- C7 amended: every coefficient pair produced by the likelihood fit lies in
the closed bounds box passed to the optimizer, `xi0 ∈ [0, ∞)` and
`xi1 ∈ [-0.1, 0.1]`, for every input residual and covariate series. -/
theorem fit_coefficients_in_closed_bounds
    (opt : ((ℝ × ℝ) → FVal) → ℝ × ℝ) (r y : List (Option ℝ)) :
    0 ≤ (optimizeLambdaCoeffs opt r y).1 ∧
    -(1 / 10) ≤ (optimizeLambdaCoeffs opt r y).2 ∧
    (optimizeLambdaCoeffs opt r y).2 ≤ 1 / 10 := by
  simp only [optimizeLambdaCoeffs, clipToBounds]
  exact ⟨le_max_left _ _, le_min (by norm_num) (le_max_left _ _), min_le_left _ _⟩

lemma negLogLikelihood_zero_var (r y : List ℝ) (coeffs : ℝ × ℝ)
    (hn : 1 ≤ r.length)
    (hv : varL (List.zipWith yjTransform r (y.map (lambdaFunction coeffs))) = 0) :
    negLogLikelihood r y coeffs = FVal.ninf := by
  have hc : (-(r.length : ℝ) / 2) < 0 := by
    have h1 : (1 : ℝ) ≤ (r.length : ℝ) := by exact_mod_cast hn
    linarith
  simp only [negLogLikelihood, hv]
  have hflog : flog 0 = FVal.ninf := by simp [flog]
  rw [hflog]
  simp only [smulF, if_pos hc, FVal.addR, FVal.neg]

/-- C8 amended: when the variance of the transformed residuals is zero, the
negative log-likelihood objective evaluates to `-inf` (IEEE `log 0 = -inf`
times the negative factor `-n/2`, then negated) and is returned to the
optimizer as is: there is no guard treating this as a failed fit. -/
theorem zero_variance_objective_is_neg_infinity (r y : List ℝ) (coeffs : ℝ × ℝ)
    (hn : 1 ≤ r.length)
    (hv : varL (List.zipWith yjTransform r (y.map (lambdaFunction coeffs))) = 0) :
    negLogLikelihood r y coeffs = FVal.ninf :=
  negLogLikelihood_zero_var r y coeffs hn hv

/-- Witness for C8 at residuals `[0, 0]`, covariate `[0, 0]`, coefficients
`(1, 0)`: the transformed residuals are `[0, 0]`, whose variance is zero. -/
theorem zero_variance_objective_is_neg_infinity_witness :
    1 ≤ [(0:ℝ), 0].length ∧
    varL (List.zipWith yjTransform [(0:ℝ), 0]
      ([(0:ℝ), 0].map (lambdaFunction (1, 0)))) = 0 ∧
    negLogLikelihood [(0:ℝ), 0] [(0:ℝ), 0] (1, 0) = FVal.ninf :=
  ⟨by norm_num, by simp [varL, meanL, yjTransform_zero],
    zero_variance_objective_is_neg_infinity [(0:ℝ), 0] [(0:ℝ), 0] (1, 0)
      (by norm_num) (by simp [varL, meanL, yjTransform_zero])⟩

/-- C8 counterexample: the claim states the implementation treats a zero
variance as a failed fit rather than silently propagating plus or minus
infinity; at the concrete input below the objective simply evaluates to
`-inf` and hands it to the optimizer. -/
theorem zero_variance_counterexample :
    negLogLikelihood [(0:ℝ), 0] [(0:ℝ), 0] (1, 0) = FVal.ninf :=
  negLogLikelihood_zero_var [(0:ℝ), 0] [(0:ℝ), 0] (1, 0) (by norm_num)
    (by simp [varL, meanL, yjTransform_zero])

lemma yjTransformO_none (lam : ℝ) : yjTransformO none lam = none := by
  simp only [yjTransformO, oMap, oGE0, Option.map_none', ite_self]
  rfl

lemma yjInverseArrEl_none (b : Option ℝ) (lam : ℝ) : yjInverseArrEl b none lam = b := by
  simp [yjInverseArrEl, selO_a, selO_b, selO_c, selO_d, oGE0, oLT0]

lemma zip3With_getD {α β γ δ : Type} (f : α → β → γ → δ)
    (da : α) (db : β) (dc : γ) (dd : δ) :
    ∀ (as : List α) (bs : List β) (cs : List γ) (i : ℕ),
      i < as.length → i < bs.length → i < cs.length →
      (zip3With f as bs cs).getD i dd
        = f (as.getD i da) (bs.getD i db) (cs.getD i dc) := by
  intro as
  induction as with
  | nil =>
    intro bs cs i h1 h2 h3
    simp at h1
  | cons a as ih =>
    intro bs cs i h1 h2 h3
    cases bs with
    | nil => simp at h2
    | cons b bs =>
      cases cs with
      | nil => simp at h3
      | cons c cs =>
        cases i with
        | zero => rfl
        | succ n =>
          simp only [zip3With, List.getD_cons_succ]
          exact ih bs cs n (by simpa using h1) (by simpa using h2) (by simpa using h3)

/-- C10: for every input element of the inverse transform kernel whose data
value is NaN, none of the four branch masks selects that position, so the
corresponding output element is never assigned and holds whatever arbitrary
value the uninitialized output buffer had there (not necessarily NaN); by
contrast the forward kernel returns NaN for NaN input elements. -/
theorem nan_input_element_never_assigned
    (buf d : List (Option ℝ)) (l : List ℝ) (i : ℕ)
    (hib : i < buf.length) (hid : i < d.length) (hil : i < l.length)
    (hnan : d.getD i none = none) :
    selO_a (d.getD i none) (l.getD i 0) = false ∧
    selO_b (d.getD i none) (l.getD i 0) = false ∧
    selO_c (d.getD i none) (l.getD i 0) = false ∧
    selO_d (d.getD i none) (l.getD i 0) = false ∧
    (yjInverseArr buf d l).getD i none = buf.getD i none ∧
    yjTransformO (d.getD i none) (l.getD i 0) = none := by
  rw [hnan]
  have harr : (yjInverseArr buf d l).getD i none = buf.getD i none := by
    rw [yjInverseArr, zip3With_getD yjInverseArrEl none none 0 none buf d l i hib hid hil,
      hnan, yjInverseArrEl_none]
  exact ⟨by simp [selO_a, oGE0], by simp [selO_b, oGE0], by simp [selO_c, oLT0],
    by simp [selO_d, oLT0], harr, yjTransformO_none _⟩

lemma yjMagnitude_sing (L l : ℝ) (h : |l| ≤ yjEps) : yjMagnitude L l = L := by
  unfold yjMagnitude
  rw [if_pos h]

lemma yjMagnitude_reg (L l : ℝ) (h : ¬ |l| ≤ yjEps) :
    yjMagnitude L l = (Real.exp (L * l) - 1) / l := by
  unfold yjMagnitude
  rw [if_neg h]

lemma yjTransform_nonneg_eval (x lam : ℝ) (hx : 0 ≤ x) :
    yjTransform x lam = yjMagnitude (Real.log (1 + x)) lam := by
  have hL0 : 0 ≤ Real.log (1 + x) := Real.log_nonneg (by linarith)
  unfold yjTransform yjExponent copysign
  rw [if_pos hx, if_pos hx, abs_of_nonneg hx,
    abs_of_nonneg (yjMagnitude_nonneg _ _ hL0)]

lemma yjTransform_neg_eval (x lam : ℝ) (hx : x < 0) :
    yjTransform x lam = -(yjMagnitude (Real.log (1 - x)) (2 - lam)) := by
  have h1 : (1:ℝ) + |x| = 1 - x := by rw [abs_of_neg hx]; ring
  have hL0 : 0 ≤ Real.log (1 - x) := Real.log_nonneg (by linarith)
  unfold yjTransform yjExponent copysign
  rw [if_neg (not_le.mpr hx), if_neg (not_le.mpr hx), h1,
    abs_of_nonneg (yjMagnitude_nonneg _ _ hL0)]

lemma yjInverse_a (t lam : ℝ) (h : sel_a t lam) :
    yjInverse t lam = Real.exp t - 1 := by
  unfold yjInverse
  rw [if_pos h]

lemma yjInverse_b (t lam : ℝ) (hna : ¬ sel_a t lam) (h : sel_b t lam) :
    yjInverse t lam = Real.exp (Real.log (1 + t * lam) / lam) - 1 := by
  unfold yjInverse
  rw [if_neg hna, if_pos h]

lemma yjInverse_c (t lam : ℝ) (hna : ¬ sel_a t lam) (hnb : ¬ sel_b t lam)
    (h : sel_c t lam) :
    yjInverse t lam
      = -(Real.exp (Real.log (1 + -((2 - lam) * t)) / (2 - lam)) - 1) := by
  unfold yjInverse
  rw [if_neg hna, if_neg hnb, if_pos h]

lemma yjInverse_d (t lam : ℝ) (hna : ¬ sel_a t lam) (hnb : ¬ sel_b t lam)
    (hnc : ¬ sel_c t lam) :
    yjInverse t lam = -(Real.exp (-t) - 1) := by
  unfold yjInverse
  rw [if_neg hna, if_neg hnb, if_neg hnc]

lemma roundtrip_pos_small (x lam : ℝ) (hx : 0 ≤ x) (h0 : 0 < lam)
    (hlt : lam < yjEps) :
    yjInverse (yjTransform x lam) lam = x := by
  have hL0 : 0 ≤ Real.log (1 + x) := Real.log_nonneg (by linarith)
  have habs : |lam| ≤ yjEps := by rw [abs_of_pos h0]; exact hlt.le
  have ht : yjTransform x lam = Real.log (1 + x) := by
    rw [yjTransform_nonneg_eval x lam hx, yjMagnitude_sing _ _ habs]
  rw [ht, yjInverse_a _ _ ⟨hL0, by rw [abs_of_pos h0]; exact hlt⟩,
    Real.exp_log (by linarith)]
  ring

lemma roundtrip_pos_large (x lam : ℝ) (hx : 0 ≤ x) (heps : yjEps < lam)
    (h2 : lam < 2) :
    yjInverse (yjTransform x lam) lam = x := by
  have hlpos : 0 < lam := lt_trans yjEps_pos heps
  have hL0 : 0 ≤ Real.log (1 + x) := Real.log_nonneg (by linarith)
  have hreg : ¬ |lam| ≤ yjEps := by rw [abs_of_pos hlpos]; exact not_le.mpr heps
  have ht : yjTransform x lam
      = (Real.exp (Real.log (1 + x) * lam) - 1) / lam := by
    rw [yjTransform_nonneg_eval x lam hx, yjMagnitude_reg _ _ hreg]
  have ht0 : 0 ≤ yjTransform x lam := by
    rw [ht]
    have h1 : 0 ≤ Real.log (1 + x) * lam := mul_nonneg hL0 hlpos.le
    have h2' := Real.add_one_le_exp (Real.log (1 + x) * lam)
    exact div_nonneg (by linarith) hlpos.le
  have hna : ¬ sel_a (yjTransform x lam) lam := by
    rintro ⟨h1, h2'⟩
    rw [abs_of_pos hlpos] at h2'
    linarith
  have hsb : sel_b (yjTransform x lam) lam :=
    ⟨ht0, by rw [abs_of_pos hlpos]; exact heps.le⟩
  rw [yjInverse_b _ _ hna hsb, ht, div_mul_cancel₀ _ hlpos.ne']
  have h1 : (1:ℝ) + (Real.exp (Real.log (1 + x) * lam) - 1)
      = Real.exp (Real.log (1 + x) * lam) := by ring
  rw [h1, Real.log_exp, mul_div_cancel_right₀ _ hlpos.ne',
    Real.exp_log (by linarith)]
  ring

lemma roundtrip_neg_sing (x lam : ℝ) (hx : x < 0) (hle : 2 - yjEps ≤ lam)
    (h2 : lam < 2) :
    yjInverse (yjTransform x lam) lam = x := by
  have hL0 : 0 < Real.log (1 - x) := Real.log_pos (by linarith)
  have hsing : |2 - lam| ≤ yjEps := by
    rw [abs_of_pos (by linarith : (0:ℝ) < 2 - lam)]
    linarith
  have ht : yjTransform x lam = -Real.log (1 - x) := by
    rw [yjTransform_neg_eval x lam hx, yjMagnitude_sing _ _ hsing]
  have htneg : yjTransform x lam < 0 := by rw [ht]; linarith
  have hna : ¬ sel_a (yjTransform x lam) lam := fun hc =>
    absurd hc.1 (not_le.mpr htneg)
  have hnb : ¬ sel_b (yjTransform x lam) lam := fun hc =>
    absurd hc.1 (not_le.mpr htneg)
  have hnc : ¬ sel_c (yjTransform x lam) lam := by
    rintro ⟨h1, hgt⟩
    rw [abs_of_neg (by linarith : lam - 2 < 0)] at hgt
    linarith
  rw [yjInverse_d _ _ hna hnb hnc, ht, neg_neg, Real.exp_log (by linarith)]
  ring

lemma roundtrip_neg_reg (x lam : ℝ) (hx : x < 0) (h0 : 0 < lam)
    (hlt : lam < 2 - yjEps) :
    yjInverse (yjTransform x lam) lam = x := by
  have he : yjEps < 2 - lam := by linarith
  have hepos : (0:ℝ) < 2 - lam := lt_trans yjEps_pos he
  have hL0 : 0 < Real.log (1 - x) := Real.log_pos (by linarith)
  have hreg : ¬ |2 - lam| ≤ yjEps := by
    rw [abs_of_pos hepos]
    exact not_le.mpr he
  have hm : 0 < (Real.exp (Real.log (1 - x) * (2 - lam)) - 1) / (2 - lam) := by
    have h1 : 0 < Real.log (1 - x) * (2 - lam) := mul_pos hL0 hepos
    have h2' := Real.add_one_le_exp (Real.log (1 - x) * (2 - lam))
    exact div_pos (by linarith) hepos
  have ht : yjTransform x lam
      = -((Real.exp (Real.log (1 - x) * (2 - lam)) - 1) / (2 - lam)) := by
    rw [yjTransform_neg_eval x lam hx, yjMagnitude_reg _ _ hreg]
  have htneg : yjTransform x lam < 0 := by rw [ht]; linarith
  have hna : ¬ sel_a (yjTransform x lam) lam := fun hc =>
    absurd hc.1 (not_le.mpr htneg)
  have hnb : ¬ sel_b (yjTransform x lam) lam := fun hc =>
    absurd hc.1 (not_le.mpr htneg)
  have hsc : sel_c (yjTransform x lam) lam :=
    ⟨htneg, by rw [abs_of_neg (by linarith : lam - 2 < 0)]; linarith⟩
  rw [yjInverse_c _ _ hna hnb hsc, ht]
  have hsimp : 1 + -((2 - lam) *
      -((Real.exp (Real.log (1 - x) * (2 - lam)) - 1) / (2 - lam)))
      = Real.exp (Real.log (1 - x) * (2 - lam)) := by
    field_simp
  rw [hsimp, Real.log_exp, mul_div_cancel_right₀ _ hepos.ne',
    Real.exp_log (by linarith)]
  ring

lemma eps_branch_bound (L : ℝ) (hL0 : 0 < L) (hL710 : L ≤ 710) :
    Real.exp (Real.log (1 + L * yjEps) / yjEps) - 1 ≤ Real.exp L - 1 ∧
    Real.exp L - 1 - (Real.exp (Real.log (1 + L * yjEps) / yjEps) - 1)
      ≤ 1 / 10 ^ 8 * (Real.exp L - 1) := by
  have heps : (0:ℝ) < yjEps := yjEps_pos
  have ha0 : 0 ≤ L * yjEps := by positivity
  have h1a : (0:ℝ) < 1 + L * yjEps := by linarith
  have hu_le : Real.log (1 + L * yjEps) / yjEps ≤ L := by
    have h := Real.log_le_sub_one_of_pos h1a
    rw [div_le_iff heps]
    linarith
  have hlow : L * yjEps - (L * yjEps) ^ 2 ≤ Real.log (1 + L * yjEps) := by
    have h2 := Real.log_le_sub_one_of_pos (show (0:ℝ) < (1 + L * yjEps)⁻¹ by positivity)
    rw [Real.log_inv] at h2
    have h3 : 1 - (1 + L * yjEps)⁻¹ ≤ Real.log (1 + L * yjEps) := by linarith
    have h4 : L * yjEps - (L * yjEps) ^ 2 ≤ 1 - (1 + L * yjEps)⁻¹ := by
      have h5 : 1 - (1 + L * yjEps)⁻¹ = (L * yjEps) / (1 + L * yjEps) := by
        field_simp
      rw [h5, le_div_iff h1a]
      nlinarith
    linarith
  have hu_ge : L - yjEps * L ^ 2 ≤ Real.log (1 + L * yjEps) / yjEps := by
    rw [le_div_iff heps]
    calc (L - yjEps * L ^ 2) * yjEps = L * yjEps - (L * yjEps) ^ 2 := by ring
      _ ≤ Real.log (1 + L * yjEps) := hlow
  have hexpu_le : Real.exp (Real.log (1 + L * yjEps) / yjEps) ≤ Real.exp L :=
    Real.exp_le_exp.mpr hu_le
  refine ⟨by linarith, ?_⟩
  have hEL := Real.exp_pos L
  have hadd := Real.add_one_le_exp (Real.log (1 + L * yjEps) / yjEps - L)
  have hsplit : Real.exp (Real.log (1 + L * yjEps) / yjEps)
      = Real.exp L * Real.exp (Real.log (1 + L * yjEps) / yjEps - L) := by
    rw [← Real.exp_add]
    ring_nf
  have h5 : Real.exp L * (Real.log (1 + L * yjEps) / yjEps - L + 1)
      ≤ Real.exp (Real.log (1 + L * yjEps) / yjEps) := by
    rw [hsplit]
    exact mul_le_mul_of_nonneg_left hadd hEL.le
  have h6 : Real.exp L - Real.exp (Real.log (1 + L * yjEps) / yjEps)
      ≤ Real.exp L * (L - Real.log (1 + L * yjEps) / yjEps) := by
    nlinarith [h5]
  have h7 : Real.exp L * (L - Real.log (1 + L * yjEps) / yjEps)
      ≤ Real.exp L * (yjEps * L ^ 2) :=
    mul_le_mul_of_nonneg_left (by linarith) hEL.le
  have hxlow : Real.exp L * L ≤ (Real.exp L - 1) * (1 + L) := by
    nlinarith [Real.add_one_le_exp L]
  have hkey : yjEps * (L * (1 + L)) ≤ 1 / 10 ^ 8 := by
    have hL1 : L * (1 + L) ≤ 710 * 711 := by nlinarith
    calc yjEps * (L * (1 + L)) ≤ yjEps * (710 * 711) :=
          mul_le_mul_of_nonneg_left hL1 heps.le
      _ ≤ 1 / 10 ^ 8 := by rw [yjEps]; norm_num
  have h1L : (0:ℝ) < 1 + L := by linarith
  have hxpos : 0 ≤ Real.exp L - 1 := by
    nlinarith [Real.add_one_le_exp L]
  have hmul := mul_le_mul hxlow hkey (by positivity) (by positivity)
  have hfin : Real.exp L * (yjEps * L ^ 2) ≤ 1 / 10 ^ 8 * (Real.exp L - 1) := by
    rw [← mul_le_mul_right h1L]
    nlinarith [hmul]
  linarith

lemma roundtrip_pos_eps (x : ℝ) (hx : 0 ≤ x) (hmax : x ≤ dblMax) :
    |yjInverse (yjTransform x yjEps) yjEps - x| ≤ 1 / 10 ^ 8 * |x| := by
  have habs : |yjEps| ≤ yjEps := by rw [abs_of_pos yjEps_pos]
  have hnlt : ¬ |yjEps| < yjEps := by rw [abs_of_pos yjEps_pos]; exact lt_irrefl _
  rcases eq_or_lt_of_le hx with heq | hpos
  · rw [← heq, yjTransform_zero]
    have hsb : sel_b (0:ℝ) yjEps := ⟨le_refl 0, by rw [abs_of_pos yjEps_pos]⟩
    rw [yjInverse_b _ _ (fun hc => hnlt hc.2) hsb]
    norm_num
  · have hx1 : (0:ℝ) < 1 + x := by linarith
    have hL0 : 0 < Real.log (1 + x) := Real.log_pos (by linarith)
    have hb : 1 + x ≤ 2 ^ 1024 := by
      rw [dblMax] at hmax
      have h971 : (1:ℝ) ≤ 2 ^ 971 := by norm_num
      linarith
    have hL710 : Real.log (1 + x) ≤ 710 := by
      have h1 : Real.log (1 + x) ≤ Real.log ((2:ℝ) ^ 1024) :=
        (Real.log_le_log_iff hx1 (by positivity)).mpr hb
      rw [Real.log_pow] at h1
      push_cast at h1
      have h2 := Real.log_two_lt_d9
      linarith
    have ht : yjTransform x yjEps = Real.log (1 + x) := by
      rw [yjTransform_nonneg_eval x yjEps hx, yjMagnitude_sing _ _ habs]
    have hsb : sel_b (yjTransform x yjEps) yjEps :=
      ⟨by rw [ht]; exact hL0.le, by rw [abs_of_pos yjEps_pos]⟩
    rw [yjInverse_b _ _ (fun hc => hnlt hc.2) hsb, ht]
    obtain ⟨hb1, hb2⟩ := eps_branch_bound (Real.log (1 + x)) hL0 hL710
    have hexpL : Real.exp (Real.log (1 + x)) = 1 + x := Real.exp_log hx1
    rw [hexpL] at hb1 hb2
    rw [abs_of_pos hpos, abs_of_nonpos (by linarith)]
    linarith

lemma yjRoundtrip_scalar (x lam : ℝ) (hx : |x| ≤ dblMax) (h0 : 0 < lam)
    (h2 : lam < 2) :
    |yjInverse (yjTransform x lam) lam - x| ≤ 1 / 10 ^ 8 * |x| := by
  rcases lt_or_le x 0 with hneg | hpos
  · rcases le_or_lt (2 - yjEps) lam with hc | hc
    · rw [roundtrip_neg_sing x lam hneg hc h2]
      simp [abs_nonneg]
    · rw [roundtrip_neg_reg x lam hneg h0 hc]
      simp [abs_nonneg]
  · rcases lt_trichotomy lam yjEps with hc | hc | hc
    · rw [roundtrip_pos_small x lam hpos h0 hc]
      simp [abs_nonneg]
    · subst hc
      exact roundtrip_pos_eps x hpos (le_trans (le_abs_self x) hx)
    · rw [roundtrip_pos_large x lam hpos hc h2]
      simp [abs_nonneg]

lemma zipWith_getD {α β γ : Type} (f : α → β → γ) (da : α) (db : β) (dc : γ) :
    ∀ (as : List α) (bs : List β) (i : ℕ), i < as.length → i < bs.length →
      (List.zipWith f as bs).getD i dc = f (as.getD i da) (bs.getD i db) := by
  intro as
  induction as with
  | nil =>
    intro bs i h1 h2
    simp at h1
  | cons a as ih =>
    intro bs i h1 h2
    cases bs with
    | nil => simp at h2
    | cons b bs =>
      cases i with
      | zero => rfl
      | succ n =>
        simp only [List.zipWith_cons_cons, List.getD_cons_succ]
        exact ih bs n (by simpa using h1) (by simpa using h2)

lemma getD_mem {α : Type} (d : α) :
    ∀ (xs : List α) (i : ℕ), i < xs.length → xs.getD i d ∈ xs := by
  intro xs
  induction xs with
  | nil =>
    intro i h
    simp at h
  | cons a as ih =>
    intro i h
    cases i with
    | zero => exact List.mem_cons_self _ _
    | succ n =>
      rw [List.getD_cons_succ]
      exact List.mem_cons_of_mem _ (ih n (by simpa using h))

/-- C1: for every finite data array and every lambda array with all values in
the open interval (0, 2), applying the inverse Yeo-Johnson kernel to the
output of the forward Yeo-Johnson kernel (with the same lambdas) returns the
original data within floating-point tolerance (1e-8 relative).  In the real
embedding the round trip is exact except at the single value
`lambda = eps` (where the forward kernel takes the singular branch,
`|lambda| <= eps`, but the inverse takes the regular one, `|lambda| >= eps`),
and there the relative deviation is below `eps * L * (1 + L) <= 1.2e-10`
with `L = log1p(data) <= 710` for finite doubles. -/
theorem roundtrip_within_tolerance (d l : List ℝ) (i : ℕ)
    (hlen : d.length = l.length) (hi : i < d.length)
    (hd : ∀ x ∈ d, |x| ≤ dblMax) (hl : ∀ lam ∈ l, 0 < lam ∧ lam < 2) :
    |(yjInverseList (yjTransformList d l) l).getD i 0 - d.getD i 0|
      ≤ 1 / 10 ^ 8 * |d.getD i 0| := by
  have hil : i < l.length := hlen ▸ hi
  have hit : i < (yjTransformList d l).length := by
    rw [yjTransformList, List.length_zipWith, hlen, min_self]
    exact hil
  have h1 : (yjTransformList d l).getD i 0 = yjTransform (d.getD i 0) (l.getD i 0) :=
    zipWith_getD yjTransform 0 0 0 d l i hi hil
  have h2 : (yjInverseList (yjTransformList d l) l).getD i 0
      = yjInverse ((yjTransformList d l).getD i 0) (l.getD i 0) :=
    zipWith_getD yjInverse 0 0 0 (yjTransformList d l) l i hit hil
  rw [h2, h1]
  obtain ⟨hl0, hl2⟩ := hl (l.getD i 0) (getD_mem 0 l i hil)
  exact yjRoundtrip_scalar (d.getD i 0) (l.getD i 0)
    (hd (d.getD i 0) (getD_mem 0 d i hi)) hl0 hl2

/-- Witness for C1 at data `[1]`, lambdas `[1]`, index 0. -/
theorem roundtrip_within_tolerance_witness :
    |(yjInverseList (yjTransformList [(1:ℝ)] [(1:ℝ)]) [(1:ℝ)]).getD 0 0
        - [(1:ℝ)].getD 0 0|
      ≤ 1 / 10 ^ 8 * |[(1:ℝ)].getD 0 0| :=
  roundtrip_within_tolerance [(1:ℝ)] [(1:ℝ)] 0 rfl (by norm_num)
    (by
      intro x hx
      rw [List.mem_singleton] at hx
      subst hx
      rw [dblMax, abs_one]
      norm_num)
    (by
      intro lam hlam
      rw [List.mem_singleton] at hlam
      subst hlam
      norm_num)

/-- Witness for C10 at buffer `[5]`, data `[NaN]`, lambdas `[1]`, index 0. -/
theorem nan_input_element_never_assigned_witness :
    selO_a ([(none : Option ℝ)].getD 0 none) ([(1:ℝ)].getD 0 0) = false ∧
    selO_b ([(none : Option ℝ)].getD 0 none) ([(1:ℝ)].getD 0 0) = false ∧
    selO_c ([(none : Option ℝ)].getD 0 none) ([(1:ℝ)].getD 0 0) = false ∧
    selO_d ([(none : Option ℝ)].getD 0 none) ([(1:ℝ)].getD 0 0) = false ∧
    (yjInverseArr [some (5:ℝ)] [none] [(1:ℝ)]).getD 0 none
      = [some (5:ℝ)].getD 0 none ∧
    yjTransformO ([(none : Option ℝ)].getD 0 none) ([(1:ℝ)].getD 0 0) = none :=
  nan_input_element_never_assigned [some (5:ℝ)] [none] [(1:ℝ)] 0
    (by norm_num) (by norm_num) (by norm_num) rfl
